import Mathlib

/-!
Shallow embedding of `src/hum/gen/sine_mix.py` (the `hum` repository).

The module defines two pure functions over numpy arrays:

* `mk_sine_wf(freq, n_samples, sr, phase, gain)` returns
  `gain * sin(phase + arange(n_samples) * 2 * pi * freq / sr)`.
* `freq_based_stationary_wf(freqs, weights, n_samples, sr)` substitutes
  `weights = ones(len(freqs))` when `weights` is `None`, asserts
  `len(freqs) == len(weights)`, forms
  `wf = sum(mk_sine_wf(freq, n_samples, sr) * weights[i] for i, freq in enumerate(freqs))`
  and returns `wf / sum(weights)`.

Samples are modelled as real numbers, a waveform as a `List ℝ`.  The sample
count is an `ℤ` because the Python function accepts any integer and
`numpy.arange n` yields the empty array for `n ≤ 0`; this is captured by
`Int.toNat`.  The `assert` statement is modelled by an `Except` result: the
`.error` branch corresponds to the Python call raising, the `.ok` branch to it
returning a waveform.  Python's `sum` of a non-empty sequence of arrays folds
elementwise addition over the sequence starting from its first element (the
initial scalar `0` broadcasts away); an empty `freqs` makes `sum` return the
scalar `0`, so no waveform is produced, which the embedding marks as an error.
-/

def DFLT_N_SAMPLES : ℤ := 21 * 2048

def DFLT_SR : ℝ := 44100

/-- Embeds `mk_sine_wf`:
`return gain * sin(phase + arange(n_samples) * 2 * pi * freq / sr)`. -/
noncomputable def mk_sine_wf (freq : ℝ) (n_samples : ℤ) (sr : ℝ) (phase : ℝ)
    (gain : ℝ) : List ℝ :=
  (List.range n_samples.toNat).map fun i : ℕ =>
    gain * Real.sin (phase + (i : ℝ) * 2 * Real.pi * freq / sr)

/-- Elementwise addition of two waveforms (numpy `+` on equal-length arrays). -/
noncomputable def addWf (a b : List ℝ) : List ℝ := List.zipWith (· + ·) a b

/-- Python `sum` over a sequence of equal-length numpy arrays: for a non-empty
sequence the arrays are added elementwise left to right; for an empty sequence
`sum` returns the scalar `0`, not an array, hence `none`. -/
noncomputable def sumWfs : List (List ℝ) → Option (List ℝ)
  | [] => none
  | wf :: rest => some (rest.foldl addWf wf)

/-- Embeds `freq_based_stationary_wf`.  `weights = none` models the Python
default `weights=None`, replaced by `ones(len(freqs))`.  The length `assert`
becomes the `if`; on mismatch the call raises (`.error`).  With an empty
`freqs` the Python `sum` yields the scalar `0` and no waveform results, which
is likewise an `.error`. -/
noncomputable def freq_based_stationary_wf (freqs : List ℝ)
    (weights : Option (List ℝ)) (n_samples : ℤ) (sr : ℝ) :
    Except String (List ℝ) :=
  let w := weights.getD (List.replicate freqs.length 1)
  if freqs.length = w.length then
    match sumWfs ((freqs.zip w).map fun p =>
        (mk_sine_wf p.1 n_samples sr 0 1).map (· * p.2)) with
    | some wf => Except.ok (wf.map (· / w.sum))
    | none => Except.error "empty freqs: sum is the scalar 0, not a waveform"
  else Except.error "AssertionError: len(freqs) == len(weights)"

/-- Follows the spec's words (§4.2, Algorithm), for comparison with the
source-derived `freq_based_stationary_wf`: "for each `i`-th frequency,
generate its Waveform via SineWaveformGenerator with `gain = 1`, `phase = 0`,
and the shared `sampleCount`/`sampleRate`; multiply element-wise by
`weights[i]`; sum all weighted waveforms element-wise; divide every sample of
the sum by `sum(weights)`". -/
noncomputable def generateMix_spec (freqs weights : List ℝ) (n_samples : ℤ)
    (sr : ℝ) : List ℝ :=
  let weighted := (List.range freqs.length).map fun i : ℕ =>
    (mk_sine_wf (freqs.getD i 0) n_samples sr 0 1).map (· * weights.getD i 0)
  (weighted.foldl addWf (List.replicate n_samples.toNat 0)).map
    (· / weights.sum)

/-- Follows the spec's words: the element-wise arithmetic mean of a family of
equally long waveforms (sample `i` of the mean is the average of the samples
at index `i`). -/
noncomputable def mean_wfs (wfs : List (List ℝ)) : List ℝ :=
  (List.range (wfs.headD []).length).map fun i : ℕ =>
    (wfs.map fun wf => wf.getD i 0).sum / wfs.length

/-- Elementwise addition of two waveforms given as maps over `List.range`. -/
lemma addWf_map_range (f g : ℕ → ℝ) (n : ℕ) :
    addWf ((List.range n).map f) ((List.range n).map g)
      = (List.range n).map fun i => f i + g i := by
  rw [addWf, List.zipWith_map, List.zipWith_same]

/-- Folding `addWf` over waveforms that are maps over the same `List.range`
accumulates the pointwise sums. -/
lemma foldl_addWf_map_range {α : Type} (g : α → ℕ → ℝ) (n : ℕ) (l : List α)
    (f : ℕ → ℝ) :
    (l.map fun p => (List.range n).map (g p)).foldl addWf ((List.range n).map f)
      = (List.range n).map fun i => f i + (l.map fun p => g p i).sum := by
  induction l generalizing f with
  | nil => simp
  | cons a l ih =>
      simp only [List.map_cons, List.foldl_cons, addWf_map_range, ih]
      simp [add_assoc]

/-- `sumWfs` of a non-empty family of waveforms over the same `List.range`
is the pointwise sum of the family. -/
lemma sumWfs_map_range {α : Type} (g : α → ℕ → ℝ) (n : ℕ) (a : α) (l : List α) :
    sumWfs ((a :: l).map fun p => (List.range n).map (g p))
      = some ((List.range n).map fun i => ((a :: l).map fun p => g p i).sum) := by
  simp only [List.map_cons, sumWfs, foldl_addWf_map_range]
  simp

/-- Closed form of `freq_based_stationary_wf` for non-empty `freqs` and
explicit weights of matching length: sample `i` is the weighted sum of the
individual sine samples divided by the total weight. -/
lemma freq_based_closed (freqs w : List ℝ) (hne : freqs ≠ [])
    (hlen : freqs.length = w.length) (n : ℤ) (sr : ℝ) :
    freq_based_stationary_wf freqs (some w) n sr
      = Except.ok ((List.range n.toNat).map fun i : ℕ =>
          ((freqs.zip w).map fun p =>
            1 * Real.sin (0 + (i : ℝ) * 2 * Real.pi * p.1 / sr) * p.2).sum
          / w.sum) := by
  obtain ⟨a, freqs, rfl⟩ := List.exists_cons_of_ne_nil hne
  have hw : w ≠ [] := by
    intro h
    subst h
    simp at hlen
  obtain ⟨b, w, rfl⟩ := List.exists_cons_of_ne_nil hw
  simp only [freq_based_stationary_wf, Option.getD_some, if_pos hlen]
  have hmk : ∀ p ∈ (a, b) :: freqs.zip w,
      (mk_sine_wf p.1 n sr 0 1).map (· * p.2)
        = (List.range n.toNat).map
            ((fun (p : ℝ × ℝ) (i : ℕ) =>
              1 * Real.sin (0 + (i : ℝ) * 2 * Real.pi * p.1 / sr) * p.2) p) := by
    intro p _
    rw [mk_sine_wf, List.map_map]
    rfl
  rw [show (a :: freqs).zip (b :: w) = (a, b) :: freqs.zip w from rfl,
    List.map_congr_left hmk,
    sumWfs_map_range (fun (p : ℝ × ℝ) (i : ℕ) =>
      1 * Real.sin (0 + (i : ℝ) * 2 * Real.pi * p.1 / sr) * p.2) n.toNat
      (a, b) (freqs.zip w)]
  show Except.ok (List.map _ (List.map _ _)) = _
  rw [List.map_map]
  rfl

/-- Sample `i` of `mk_sine_wf`, for `i` within range. -/
lemma mk_sine_wf_getD (freq sr phase gain : ℝ) (n : ℤ) (i : ℕ)
    (hi : i < n.toNat) :
    (mk_sine_wf freq n sr phase gain).getD i 0
      = gain * Real.sin (phase + (i : ℝ) * 2 * Real.pi * freq / sr) := by
  rw [mk_sine_wf, List.getD_eq_getElem?_getD, List.getElem?_map,
    List.getElem?_range hi]
  rfl

/-- Indexing two equally long lists over `List.range` is the same as zipping
them. -/
lemma range_index_zip (h : ℝ → ℝ → ℝ) (a b : List ℝ)
    (hlen : a.length = b.length) :
    (List.range a.length).map (fun j : ℕ => h (a.getD j 0) (b.getD j 0))
      = (a.zip b).map fun p => h p.1 p.2 := by
  induction a generalizing b with
  | nil => simp
  | cons x a ih =>
      cases b with
      | nil => simp at hlen
      | cons y b =>
          have hlen' : a.length = b.length := by simpa using hlen
          simp only [List.length_cons, List.range_succ_eq_map, List.map_cons,
            List.map_map, List.zip_cons_cons]
          refine congrArg₂ List.cons (by simp) ?_
          rw [← ih b hlen']
          simp [Function.comp_def]

/-- Zipping a list with a same-length constant list and combining. -/
lemma zip_replicate_map (h : ℝ → ℝ → ℝ) (v : ℝ) (a : List ℝ) :
    (a.zip (List.replicate a.length v)).map (fun p => h p.1 p.2)
      = a.map fun f => h f v := by
  induction a with
  | nil => simp
  | cons x a ih => simp [List.replicate_succ, ih]

/-- Scalars pull out of a sum of left-multiplied terms. -/
lemma sum_map_kmul {α : Type} (k : ℝ) (f : α → ℝ) (l : List α) :
    (l.map fun x => k * f x).sum = k * (l.map f).sum := by
  induction l with
  | nil => simp
  | cons a l ih => simp [ih, mul_add]

/-- Scalars pull out of a sum of right-multiplied terms. -/
lemma sum_map_mulv {α : Type} (v : ℝ) (f : α → ℝ) (l : List α) :
    (l.map fun x => f x * v).sum = (l.map f).sum * v := by
  induction l with
  | nil => simp
  | cons a l ih => simp [ih, add_mul]

/-- Closed form of `generateMix_spec` for weights of matching length:
identical sample formula to `freq_based_closed`. -/
lemma generateMix_spec_closed (freqs w : List ℝ)
    (hlen : freqs.length = w.length) (n : ℤ) (sr : ℝ) :
    generateMix_spec freqs w n sr
      = (List.range n.toNat).map fun i : ℕ =>
          ((freqs.zip w).map fun p =>
            1 * Real.sin (0 + (i : ℝ) * 2 * Real.pi * p.1 / sr) * p.2).sum
          / w.sum := by
  rw [generateMix_spec]
  have hrep : List.replicate n.toNat (0 : ℝ)
      = (List.range n.toNat).map fun _ : ℕ => (0 : ℝ) := by
    simp [List.map_const]
  have hmk : ∀ j ∈ List.range freqs.length,
      (mk_sine_wf (freqs.getD j 0) n sr 0 1).map (· * w.getD j 0)
        = (List.range n.toNat).map
            ((fun (j : ℕ) (i : ℕ) =>
              1 * Real.sin (0 + (i : ℝ) * 2 * Real.pi * (freqs.getD j 0) / sr)
                * w.getD j 0) j) := by
    intro j _
    rw [mk_sine_wf, List.map_map]
    rfl
  rw [List.map_congr_left hmk, hrep,
    foldl_addWf_map_range (fun (j : ℕ) (i : ℕ) =>
      1 * Real.sin (0 + (i : ℝ) * 2 * Real.pi * (freqs.getD j 0) / sr)
        * w.getD j 0) n.toNat (List.range freqs.length) (fun _ => 0),
    List.map_map]
  refine List.map_congr_left fun i _ => ?_
  show (0 + _) / w.sum = _
  rw [zero_add,
    range_index_zip (fun x y =>
      1 * Real.sin (0 + (i : ℝ) * 2 * Real.pi * x / sr) * y) freqs w hlen]

/-- C1: for every real frequency, phase, gain, positive integer sampleRate and
sampleCount ≥ 0, the waveform returned by `mk_sine_wf` has sample `i` (0-based)
equal to `gain * sin(phase + i * 2π * frequency / sampleRate)` for every
`i < sampleCount`. -/
theorem mk_sine_wf_sample_formula (freq phase gain : ℝ) (sr : ℕ)
    (hsr : 0 < sr) (n : ℤ) (hn : 0 ≤ n) (i : ℕ) (hi : (i : ℤ) < n) :
    (mk_sine_wf freq n (sr : ℝ) phase gain).getD i 0
      = gain * Real.sin (phase + (i : ℝ) * (2 * Real.pi) * freq / (sr : ℝ)) := by
  rw [mk_sine_wf_getD freq (sr : ℝ) phase gain n i (by omega)]
  ring_nf

/-- Witness for C1 at freq = 1, sr = 2, n = 3, i = 1. -/
theorem mk_sine_wf_sample_formula_witness :
    (mk_sine_wf 1 3 ((2 : ℕ) : ℝ) 0 1).getD 1 0
      = 1 * Real.sin (0 + ((1 : ℕ) : ℝ) * (2 * Real.pi) * 1 / ((2 : ℕ) : ℝ)) :=
  mk_sine_wf_sample_formula 1 0 1 2 (by decide) 3 (by decide) 1 (by decide)

/-- C3: for every sampleCount ≥ 0, `mk_sine_wf` returns a waveform of length
exactly sampleCount (no error path exists for well-formed numeric inputs); in
particular sampleCount = 0 yields the empty waveform. -/
theorem mk_sine_wf_length_eq (freq sr phase gain : ℝ) (n : ℤ) (hn : 0 ≤ n) :
    ((mk_sine_wf freq n sr phase gain).length : ℤ) = n
      ∧ mk_sine_wf freq 0 sr phase gain = [] := by
  constructor
  · simp [mk_sine_wf, Int.toNat_of_nonneg hn]
  · rfl

/-- Witness for C3 at n = 3. -/
theorem mk_sine_wf_length_eq_witness :
    ((mk_sine_wf 1 3 2 0 1).length : ℤ) = 3 ∧ mk_sine_wf 1 0 2 0 1 = [] :=
  mk_sine_wf_length_eq 1 2 0 1 3 (by decide)

/-- C4: whenever explicitly supplied weights differ in length from the
frequencies, `freq_based_stationary_wf` fails with the length-assertion error
(never a truncated or partial waveform). -/
theorem freq_based_stationary_wf_length_mismatch (freqs w : List ℝ) (n : ℤ)
    (sr : ℝ) (hlen : freqs.length ≠ w.length) :
    freq_based_stationary_wf freqs (some w) n sr
      = Except.error "AssertionError: len(freqs) == len(weights)" := by
  simp [freq_based_stationary_wf, hlen]

/-- Witness for C4 at freqs = [1], weights = [1, 2]. -/
theorem freq_based_stationary_wf_length_mismatch_witness :
    freq_based_stationary_wf [1] (some [1, 2]) 3 44100
      = Except.error "AssertionError: len(freqs) == len(weights)" :=
  freq_based_stationary_wf_length_mismatch [1] [1, 2] 3 44100 (by decide)

/-- C5 counterexample: at sampleCount = -1 neither function raises; numpy's
`arange` clamps a negative count to the empty array, so `mk_sine_wf` returns
the empty waveform and `freq_based_stationary_wf` returns it wrapped in a
normal (`.ok`) result. -/
theorem negative_n_samples_counterexample :
    mk_sine_wf 5 (-1) 44100 0 1 = []
      ∧ freq_based_stationary_wf [200] (some [1]) (-1) 44100
          = Except.ok [] :=
  ⟨rfl, rfl⟩

/-- C5 amended: for every negative sampleCount, `mk_sine_wf` returns the empty
waveform, and `freq_based_stationary_wf` (with non-empty frequencies and
matching explicit weights) returns the empty waveform rather than raising. -/
theorem negative_n_samples_empty (freq sr phase gain : ℝ) (freqs w : List ℝ)
    (srm : ℝ) (n : ℤ) (hn : n < 0) (hne : freqs ≠ [])
    (hlen : freqs.length = w.length) :
    mk_sine_wf freq n sr phase gain = []
      ∧ freq_based_stationary_wf freqs (some w) n srm = Except.ok [] := by
  have h0 : n.toNat = 0 := Int.toNat_of_nonpos hn.le
  constructor
  · simp [mk_sine_wf, h0]
  · rw [freq_based_closed freqs w hne hlen n srm, h0]
    simp

/-- Witness for C5's amended statement at n = -1. -/
theorem negative_n_samples_empty_witness :
    mk_sine_wf 1 (-1) 2 0 1 = []
      ∧ freq_based_stationary_wf [2] (some [3]) (-1) 4 = Except.ok [] :=
  negative_n_samples_empty 1 2 0 1 [2] [3] 4 (-1) (by decide) (by simp)
    (by decide)

/-- C6: omitting the weights gives exactly the same result as supplying an
explicit all-ones weight list of the frequencies' length (the code replaces
`None` by `ones(len(freqs))` before doing anything else). -/
theorem freq_based_stationary_wf_default_weights (freqs : List ℝ) (n : ℤ)
    (sr : ℝ) :
    freq_based_stationary_wf freqs none n sr
      = freq_based_stationary_wf freqs
          (some (List.replicate freqs.length 1)) n sr := rfl

/-- C9: both functions are deterministic pure functions of their arguments:
the embedding of the source has no state, so two calls with identical
arguments denote the same waveform. -/
theorem sine_mix_deterministic (freq phase gain sr : ℝ) (n : ℤ)
    (freqs : List ℝ) (weights : Option (List ℝ)) :
    mk_sine_wf freq n sr phase gain = mk_sine_wf freq n sr phase gain
      ∧ freq_based_stationary_wf freqs weights n sr
          = freq_based_stationary_wf freqs weights n sr :=
  ⟨rfl, rfl⟩

/-- C2: for non-empty frequencies and matching-length weights,
`freq_based_stationary_wf` returns exactly the waveform described by the
spec's algorithm (per-frequency unit-gain zero-phase sine waveforms, weighted
elementwise, summed elementwise, divided by the weight total). -/
theorem freq_based_stationary_wf_matches_spec (freqs w : List ℝ) (n : ℤ)
    (sr : ℝ) (hne : freqs ≠ []) (hlen : freqs.length = w.length) :
    freq_based_stationary_wf freqs (some w) n sr
      = Except.ok (generateMix_spec freqs w n sr) := by
  rw [freq_based_closed freqs w hne hlen n sr,
    generateMix_spec_closed freqs w hlen n sr]

/-- Witness for C2 at freqs = [1], weights = [2], n = 3. -/
theorem freq_based_stationary_wf_matches_spec_witness :
    freq_based_stationary_wf [1] (some [2]) 3 5
      = Except.ok (generateMix_spec [1] [2] 3 5) :=
  freq_based_stationary_wf_matches_spec [1] [2] 3 5 (by simp) (by decide)

/-- C7: scaling all explicit weights by a positive constant `k` leaves the
result of `freq_based_stationary_wf` unchanged (exact real arithmetic). -/
theorem freq_based_stationary_wf_scale_invariant (freqs w : List ℝ) (n : ℤ)
    (sr k : ℝ) (hne : freqs ≠ []) (hlen : freqs.length = w.length)
    (hk : 0 < k) (hw : 0 < w.sum) :
    freq_based_stationary_wf freqs (some (w.map fun x => k * x)) n sr
      = freq_based_stationary_wf freqs (some w) n sr := by
  have hlen' : freqs.length = (w.map fun x => k * x).length := by
    simpa using hlen
  rw [freq_based_closed freqs w hne hlen n sr,
    freq_based_closed freqs _ hne hlen' n sr]
  refine congrArg Except.ok (List.map_congr_left fun i _ => ?_)
  have hnum : ((freqs.zip (w.map fun x => k * x)).map fun p =>
      1 * Real.sin (0 + (i : ℝ) * 2 * Real.pi * p.1 / sr) * p.2).sum
      = k * ((freqs.zip w).map fun p =>
          1 * Real.sin (0 + (i : ℝ) * 2 * Real.pi * p.1 / sr) * p.2).sum := by
    rw [List.zip_map_right, List.map_map, ← sum_map_kmul]
    refine congrArg List.sum (List.map_congr_left fun p _ => ?_)
    show 1 * Real.sin (0 + (i : ℝ) * 2 * Real.pi * p.1 / sr) * (k * p.2)
      = k * (1 * Real.sin (0 + (i : ℝ) * 2 * Real.pi * p.1 / sr) * p.2)
    ring
  have hden : (w.map fun x => k * x).sum = k * w.sum := by
    simpa using sum_map_kmul k (fun x => x) w
  rw [hnum, hden, mul_div_mul_left _ _ (ne_of_gt hk)]

/-- Witness for C7 at freqs = [1], weights = [1], k = 2, n = 1. -/
theorem freq_based_stationary_wf_scale_invariant_witness :
    freq_based_stationary_wf [1] (some (([1] : List ℝ).map fun x => 2 * x)) 1 3
      = freq_based_stationary_wf [1] (some [1]) 1 3 :=
  freq_based_stationary_wf_scale_invariant [1] [1] 1 3 2 (by simp) (by decide)
    two_pos (by simp)

/-- C8: with all weights equal to the same positive value, the mix is the
element-wise arithmetic mean of the individual unit-gain zero-phase sine
waveforms. -/
theorem freq_based_stationary_wf_equal_weights_mean (freqs : List ℝ) (v : ℝ)
    (n : ℤ) (sr : ℝ) (hne : freqs ≠ []) (hv : 0 < v) :
    freq_based_stationary_wf freqs
        (some (List.replicate freqs.length v)) n sr
      = Except.ok (mean_wfs (freqs.map fun f => mk_sine_wf f n sr 0 1)) := by
  have hlen : freqs.length = (List.replicate freqs.length v).length := by simp
  rw [freq_based_closed freqs _ hne hlen n sr]
  refine congrArg Except.ok ?_
  obtain ⟨a, fr, rfl⟩ := List.exists_cons_of_ne_nil hne
  rw [mean_wfs]
  rw [show ((a :: fr).map fun f => mk_sine_wf f n sr 0 1).headD []
      = mk_sine_wf a n sr 0 1 from rfl]
  rw [show (mk_sine_wf a n sr 0 1).length = n.toNat by
    simp [mk_sine_wf]]
  refine List.map_congr_left fun i hi => ?_
  have hi' : i < n.toNat := List.mem_range.mp hi
  rw [zip_replicate_map (fun x y =>
      1 * Real.sin (0 + (i : ℝ) * 2 * Real.pi * x / sr) * y) v (a :: fr),
    sum_map_mulv, List.sum_replicate, nsmul_eq_mul,
    mul_div_mul_right _ _ (ne_of_gt hv), List.map_map]
  have hsample : ∀ f ∈ a :: fr,
      ((fun wf => wf.getD i 0) ∘ fun f => mk_sine_wf f n sr 0 1) f
        = 1 * Real.sin (0 + (i : ℝ) * 2 * Real.pi * f / sr) := fun f _ =>
    mk_sine_wf_getD f sr 0 1 n i hi'
  rw [List.map_congr_left hsample, List.length_map]

/-- Witness for C8 at freqs = [1], v = 2, n = 1. -/
theorem freq_based_stationary_wf_equal_weights_mean_witness :
    freq_based_stationary_wf [1]
        (some (List.replicate ([1] : List ℝ).length 2)) 1 3
      = Except.ok (mean_wfs (([1] : List ℝ).map fun f => mk_sine_wf f 1 3 0 1)) :=
  freq_based_stationary_wf_equal_weights_mean [1] 2 1 3 (by simp) two_pos

/-- C10: when the explicitly supplied weights sum to zero (for example all
zero), `freq_based_stationary_wf` raises no error: the division by
`sum(weights)` is unguarded and a full-length waveform is still returned.
(the non-finiteness of the resulting float samples is a floating-point
artefact outside the real-number embedding, where division by zero is
total). -/
theorem freq_based_stationary_wf_zero_weight_sum (freqs w : List ℝ) (n : ℤ)
    (sr : ℝ) (hne : freqs ≠ []) (hlen : freqs.length = w.length)
    (hw : w.sum = 0) :
    ∃ wf, freq_based_stationary_wf freqs (some w) n sr = Except.ok wf
      ∧ wf.length = n.toNat :=
  ⟨_, freq_based_closed freqs w hne hlen n sr, by simp⟩

/-- Witness for C10 at freqs = [1, 2], weights = [0, 0], n = 2. -/
theorem freq_based_stationary_wf_zero_weight_sum_witness :
    ∃ wf, freq_based_stationary_wf [1, 2] (some [0, 0]) 2 7 = Except.ok wf
      ∧ wf.length = (2 : ℤ).toNat :=
  freq_based_stationary_wf_zero_weight_sum [1, 2] [0, 0] 2 7 (by simp)
    (by decide) (by simp)
